import Mathlib

/-!
Verification of the geometric core of the hand-driven artifact viewer.

The development shallowly embeds the two source files of the repository:

* `src/components/ArtifactModel.tsx` — mesh normalization (deep clone,
  material sanitization, transform reset, bounding-box computation,
  centering, scale computation) and the per-render-tick rotation
  smoothing (`useFrame` body).
* `src/App.tsx` — the per-frame hand-landmark handler `predict`
  (redundant-frame suppression, target-rotation derivation).

Numbers are modelled as rationals (`ℚ`); the constant `Math.PI` is passed
as an explicit rational parameter `mathPi` wherever the source uses it,
so every theorem is uniform in its value.  Scene-graph nodes carry their
local transform with the rotation stored as the 3x3 matrix derived from
the Euler angles (so `rotation.set(0,0,0)` becomes the identity matrix),
geometry as its list of local-space vertices, and materials by index into
an explicit material store (a `List Material`), which makes the
aliasing/cloning behavior of `THREE.Material.clone` expressible:
`Object3D.clone(true)` copies the node tree but shares material
references, so in the model the tree is a value and the store is threaded
through normalization, growing by appended clones only.
-/

/-- Vec3 is a triple of rationals, mirroring `THREE.Vector3` components. -/
abbrev Vec3 : Type := ℚ × ℚ × ℚ

/-- Mat3 is a 3x3 rational matrix, the linear part of a node transform. -/
structure Mat3 where
  a11 : ℚ
  a12 : ℚ
  a13 : ℚ
  a21 : ℚ
  a22 : ℚ
  a23 : ℚ
  a31 : ℚ
  a32 : ℚ
  a33 : ℚ
deriving DecidableEq

/-- Identity matrix: the rotation matrix of Euler angles (0,0,0). -/
def idM : Mat3 := ⟨1, 0, 0, 0, 1, 0, 0, 0, 1⟩

/-- Diagonal matrix of a scale vector, the `S` part of a TRS transform. -/
def diagM (s : Vec3) : Mat3 := ⟨s.1, 0, 0, 0, s.2.1, 0, 0, 0, s.2.2⟩

/-- Matrix-matrix product. -/
def mulM (A B : Mat3) : Mat3 :=
  ⟨A.a11 * B.a11 + A.a12 * B.a21 + A.a13 * B.a31,
   A.a11 * B.a12 + A.a12 * B.a22 + A.a13 * B.a32,
   A.a11 * B.a13 + A.a12 * B.a23 + A.a13 * B.a33,
   A.a21 * B.a11 + A.a22 * B.a21 + A.a23 * B.a31,
   A.a21 * B.a12 + A.a22 * B.a22 + A.a23 * B.a32,
   A.a21 * B.a13 + A.a22 * B.a23 + A.a23 * B.a33,
   A.a31 * B.a11 + A.a32 * B.a21 + A.a33 * B.a31,
   A.a31 * B.a12 + A.a32 * B.a22 + A.a33 * B.a32,
   A.a31 * B.a13 + A.a32 * B.a23 + A.a33 * B.a33⟩

/-- Matrix-vector product. -/
def mulV (A : Mat3) (v : Vec3) : Vec3 :=
  (A.a11 * v.1 + A.a12 * v.2.1 + A.a13 * v.2.2,
   A.a21 * v.1 + A.a22 * v.2.1 + A.a23 * v.2.2,
   A.a31 * v.1 + A.a32 * v.2.1 + A.a33 * v.2.2)

/-- Componentwise minimum of two vectors (`THREE.Vector3.min`). -/
def vmin (a b : Vec3) : Vec3 := (min a.1 b.1, min a.2.1 b.2.1, min a.2.2 b.2.2)

/-- Componentwise maximum of two vectors (`THREE.Vector3.max`). -/
def vmax (a b : Vec3) : Vec3 := (max a.1 b.1, max a.2.1 b.2.1, max a.2.2 b.2.2)

/-- Value of the three.js constant `THREE.NormalBlending`. -/
def normalBlendingV : ℕ := 1

/-- Value of the three.js constant `THREE.AdditiveBlending`. -/
def additiveBlendingV : ℕ := 2

/-- Value of the three.js constant `THREE.FrontSide`. -/
def frontSideV : ℕ := 0

/-- Value of the three.js constant `THREE.DoubleSide`. -/
def doubleSideV : ℕ := 2

/-- Material models the `THREE.Material` fields the normalizer touches,
plus `colorHex` standing for all the untouched fields that
`Material.clone` copies verbatim. -/
structure Material where
  transparent : Bool
  opacity : ℚ
  blending : ℕ
  side : ℕ
  needsUpdate : Bool
  colorHex : ℕ
deriving DecidableEq

/-- Default material used by the total lookup into the material store. -/
def mdefault : Material :=
  { transparent := false, opacity := 1, blending := normalBlendingV,
    side := frontSideV, needsUpdate := false, colorHex := 0 }

/-- MatRef models the `mesh.material` slot: in three.js it is either a
single material reference or an array of references (`Array.isArray`). -/
inductive MatRef where
  | single : ℕ → MatRef
  | arr : List ℕ → MatRef
deriving DecidableEq

mutual
/-- Node is a three.js scene-graph object: a pure transform container
(`THREE.Group`) or a renderable surface (`THREE.Mesh`, geometry plus
material slot and shadow flags).  Fields in order: position, rotation
(as a matrix), scale, then for meshes the local-space vertex list, the
material slot, `castShadow`, `receiveShadow`, and finally children. -/
inductive Node where
  | group : Vec3 → Mat3 → Vec3 → NodeList → Node
  | mesh : Vec3 → Mat3 → Vec3 → List Vec3 → Option MatRef → Bool → Bool →
      NodeList → Node

/-- NodeList is the children list of a scene-graph node. -/
inductive NodeList where
  | nil : NodeList
  | cons : Node → NodeList → NodeList
end

/-- Position (local translation) of a node. -/
def Node.pos : Node → Vec3
  | Node.group p _ _ _ => p
  | Node.mesh p _ _ _ _ _ _ _ => p

/-- Rotation (as a matrix) of a node. -/
def Node.rot : Node → Mat3
  | Node.group _ r _ _ => r
  | Node.mesh _ r _ _ _ _ _ _ => r

/-- Scale of a node. -/
def Node.scl : Node → Vec3
  | Node.group _ _ s _ => s
  | Node.mesh _ _ s _ _ _ _ _ => s

/-- Replace the whole local transform of the root node, modelling the
sequence `clone.position.set(0,0,0); clone.rotation.set(0,0,0);
clone.scale.set(1,1,1)` from `ArtifactModel.tsx`. -/
def Node.setTRS : Node → Vec3 → Mat3 → Vec3 → Node
  | Node.group _ _ _ cs, p, r, s => Node.group p r s cs
  | Node.mesh _ _ _ g m c rc cs, p, r, s => Node.mesh p r s g m c rc cs

/-- Replace only the root position, modelling `clone.position.sub(center)`
applied after the transform reset. -/
def Node.setPos : Node → Vec3 → Node
  | Node.group _ r s cs, p => Node.group p r s cs
  | Node.mesh _ r s g m c rc cs, p => Node.mesh p r s g m c rc cs

/-- Forced material fields of `applySettings` in `ArtifactModel.tsx`:
`newMat.transparent = false; newMat.opacity = 1.0;
newMat.blending = THREE.NormalBlending; newMat.side = THREE.DoubleSide;
newMat.needsUpdate = true`, applied to the clone of the material (all
other fields are copied verbatim by `mat.clone()`). -/
def forcedFields (m : Material) : Material :=
  { m with transparent := false, opacity := 1, blending := normalBlendingV,
           side := doubleSideV, needsUpdate := true }

/-- Allocate the sanitized clone of the material stored at `id`: the new
store has the clone appended, and the returned index points at it.  This
is `const newMat = mat.clone();` followed by the forced assignments:
the source entry at `id` is never written. -/
def applySettings (hp : List Material) (id : ℕ) : List Material × ℕ :=
  (hp ++ [forcedFields (hp.getD id mdefault)], hp.length)

/-- Sanitize a list of material indices left to right, threading the
store, modelling `mesh.material.map(applySettings)`. -/
def applySettingsList : List ℕ → List Material → List ℕ × List Material
  | [], hp => ([], hp)
  | id :: ids, hp =>
    let pr := applySettings hp id
    let pr2 := applySettingsList ids pr.1
    (pr.2 :: pr2.1, pr2.2)

/-- Sanitize the material slot of a mesh: `if (mesh.material)` guards the
whole block, and the array case maps `applySettings` over the entries. -/
def applyMatRef : Option MatRef → List Material → Option MatRef × List Material
  | none, hp => (none, hp)
  | some (MatRef.single id), hp =>
    let pr := applySettings hp id
    (some (MatRef.single pr.2), pr.1)
  | some (MatRef.arr ids), hp =>
    let pr := applySettingsList ids hp
    (some (MatRef.arr pr.1), pr.2)

mutual
/-- Material-setup traversal of `ArtifactModel.tsx` (step 1): for every
mesh set `castShadow = true`, `receiveShadow = true` and replace its
materials by sanitized clones; groups are only recursed into.  The
material store is threaded in three.js pre-order (node before its
children). -/
def applyMatN : Node → List Material → Node × List Material
  | Node.group p r s cs, hp =>
    let pr := applyMatL cs hp
    (Node.group p r s pr.1, pr.2)
  | Node.mesh p r s g mref _ _ cs, hp =>
    let pr1 := applyMatRef mref hp
    let pr2 := applyMatL cs pr1.2
    (Node.mesh p r s g pr1.1 true true pr2.1, pr2.2)

/-- Children part of the material-setup traversal. -/
def applyMatL : NodeList → List Material → NodeList × List Material
  | NodeList.nil, hp => (NodeList.nil, hp)
  | NodeList.cons n l, hp =>
    let pr1 := applyMatN n hp
    let pr2 := applyMatL l pr1.2
    (NodeList.cons pr1.1 pr2.1, pr2.2)
end

mutual
/-- Whether the subtree contains a renderable surface: the `hasMeshes`
flag accumulated by the box-building traversal. -/
def hasMeshesN : Node → Bool
  | Node.group _ _ _ cs => hasMeshesL cs
  | Node.mesh _ _ _ _ _ _ _ _ => true

/-- Children part of the mesh search. -/
def hasMeshesL : NodeList → Bool
  | NodeList.nil => false
  | NodeList.cons n l => hasMeshesN n || hasMeshesL l
end

mutual
/-- World-space vertices of every renderable surface in the subtree.
`L` and `t` accumulate the parent world matrix (linear part and
translation); a node with local position `p`, rotation `r` and scale `s`
has world matrix `(L ⬝ r ⬝ diag s, L p + t)` (three.js composes
`matrixWorld = parent.matrixWorld * T(p) * R(r) * S(s)` in
`updateMatrixWorld(true)`).  Only meshes carry geometry, so this is what
`Box3.expandByObject` on each traversed mesh accumulates. -/
def nodeVertsN (L : Mat3) (t : Vec3) : Node → List Vec3
  | Node.group p r s cs =>
    nodeVertsL (mulM L (mulM r (diagM s))) (mulV L p + t) cs
  | Node.mesh p r s g _ _ _ cs =>
    let L2 := mulM L (mulM r (diagM s))
    let t2 := mulV L p + t
    g.map (fun v => mulV L2 v + t2) ++ nodeVertsL L2 t2 cs

/-- Children part of the world-vertex collection. -/
def nodeVertsL (L : Mat3) (t : Vec3) : NodeList → List Vec3
  | NodeList.nil => []
  | NodeList.cons n l => nodeVertsN L t n ++ nodeVertsL L t l
end

/-- Expand an axis-aligned box (`none` is the empty `new THREE.Box3()`)
by one point (`Box3.expandByPoint`). -/
def expandBox : Option (Vec3 × Vec3) → Vec3 → Option (Vec3 × Vec3)
  | none, v => some (v, v)
  | some (mn, mx), v => some (vmin mn v, vmax mx v)

/-- Axis-aligned bounding box of a list of points. -/
def boxOfPoints (ps : List Vec3) : Option (Vec3 × Vec3) :=
  ps.foldl expandBox none

/-- Bounding box accumulated by `clone.traverse` + `box.expandByObject`
over the renderable surfaces of the scene, with the root transform as
the ambient frame. -/
def meshBox (n : Node) : Option (Vec3 × Vec3) :=
  boxOfPoints (nodeVertsN idM 0 n)

/-- Fallback `box.setFromObject(clone)` over the whole graph: three.js
expands by every descendant that carries geometry, and in the model only
meshes carry geometry, so this coincides with the mesh-only box. -/
def fullBox (n : Node) : Option (Vec3 × Vec3) :=
  boxOfPoints (nodeVertsN idM 0 n)

/-- Componentwise `(a + b) / 2`, the body of `Box3.getCenter`. -/
def halfSum (a b : Vec3) : Vec3 :=
  ((a.1 + b.1) / 2, (a.2.1 + b.2.1) / 2, (a.2.2 + b.2.2) / 2)

/-- Center of a box (`Box3.getCenter`): the zero vector for the empty
box, otherwise `(min + max) / 2`. -/
def boxCenter : Option (Vec3 × Vec3) → Vec3
  | none => 0
  | some (mn, mx) => halfSum mn mx

/-- Size of a box (`Box3.getSize`): zero for the empty box, otherwise
`max - min`. -/
def boxSizeV : Option (Vec3 × Vec3) → Vec3
  | none => 0
  | some (mn, mx) => mx - mn

/-- Target display size, the constant `targetSize = 4.0`. -/
def targetSize : ℚ := 4

/-- Material-setup stage of the normalizer applied to the deep clone.
`scene.clone(true)` copies the node tree and shares material indices, so
the clone is the same tree value as the source. -/
def sanitizeScene (s : Node) (hp : List Material) : Node × List Material :=
  applyMatN s hp

/-- Scene after material setup and root-transform reset (steps 1-3 of
the normalizer): position `(0,0,0)`, rotation `(0,0,0)` (identity
matrix), scale `(1,1,1)`. -/
def preClone (s : Node) (hp : List Material) : Node :=
  (sanitizeScene s hp).1.setTRS (0, 0, 0) idM (1, 1, 1)

/-- Material store after normalization (only the material stage touches
it). -/
def normHeap (s : Node) (hp : List Material) : List Material :=
  (sanitizeScene s hp).2

/-- Bounding box used for centering and scaling: over renderable
surfaces only when any exist, else the full-graph fallback. -/
def normBox (s : Node) (hp : List Material) : Option (Vec3 × Vec3) :=
  if hasMeshesN (preClone s hp) then meshBox (preClone s hp)
  else fullBox (preClone s hp)

/-- Normalized scene: the reset clone with the box midpoint subtracted
from its root position (`clone.position.sub(center)`). -/
def normScene (s : Node) (hp : List Material) : Node :=
  (preClone s hp).setPos ((preClone s hp).pos - boxCenter (normBox s hp))

/-- Largest dimension of the normalization box,
`Math.max(size.x, size.y, size.z)`. -/
def maxDimOf (s : Node) (hp : List Material) : ℚ :=
  max (boxSizeV (normBox s hp)).1
    (max (boxSizeV (normBox s hp)).2.1 (boxSizeV (normBox s hp)).2.2)

/-- Published display scale, `targetSize / (maxDim || 1)`: the JS
`maxDim || 1` falls back to 1 exactly when `maxDim` is zero. -/
def normScale (s : Node) (hp : List Material) : ℚ :=
  targetSize / (if maxDimOf s hp = 0 then 1 else maxDimOf s hp)

/-- Landmark is one MediaPipe hand landmark in normalized image space. -/
structure Landmark where
  x : ℚ
  y : ℚ
  z : ℚ
deriving DecidableEq

/-- Default landmark for the total model of the JS index access
`landmarks[9]` (MediaPipe hands always carry 21 landmarks, so the claims
only exercise in-range accesses). -/
def lmDefault : Landmark := ⟨0, 0, 0⟩

/-- FrameInput is what one invocation of `predict` observes: the video
element's `currentTime` and the detector's `results.landmarks`. -/
structure FrameInput where
  currentTime : ℚ
  landmarks : List (List Landmark)
deriving DecidableEq

/-- AppState holds the mutable state of `App.tsx` that `predict`
touches: `lastVideoTime.current` and the `rotation` React state. -/
structure AppState where
  lastVideoTime : ℚ
  rotation : Vec3
deriving DecidableEq

/-- Initial state of `App.tsx`: `lastVideoTime = -1`,
`rotation = [0, 0, 0]`. -/
def initAppState : AppState := { lastVideoTime := -1, rotation := (0, 0, 0) }

/-- One invocation of the `predict` callback of `App.tsx`: when the
video timestamp differs from the last processed one, record it and run
detection; if at least one hand is present, take landmark 9 of the first
hand (middle-finger MCP) and set the target rotation
`[(y - 0.5) * PI * 2, (x - 0.5) * PI * 4, 0]`; otherwise keep the
previous rotation.  `mathPi` stands for `Math.PI`. -/
def predict (mathPi : ℚ) (st : AppState) (f : FrameInput) : AppState :=
  if f.currentTime ≠ st.lastVideoTime then
    let st1 := { st with lastVideoTime := f.currentTime }
    match f.landmarks with
    | [] => st1
    | hand :: _ =>
      let lm := hand.getD 9 lmDefault
      let rotY := (lm.x - 1/2) * mathPi * 4
      let rotX := (lm.y - 1/2) * mathPi * 2
      { st1 with rotation := (rotX, rotY, 0) }
  else st

/-- Linear interpolation, `THREE.MathUtils.lerp(x, y, t) =
(1 - t) * x + t * y` (unclamped). -/
def lerp (x y t : ℚ) : ℚ := (1 - t) * x + t * y

/-- SmoothState is the rotation state the `useFrame` body of
`ArtifactModel.tsx` touches: the `currentRotation` ref and the wrapper
group rotation. -/
structure SmoothState where
  current : Vec3
  groupRot : Vec3
deriving DecidableEq

/-- One `useFrame` tick of `ArtifactModel.tsx`: with
`smoothingSpeed = 5 * delta`, lerp components 0 and 1 of
`currentRotation` toward the external rotation and copy them into the
group's x and y rotation; the z components are never assigned. -/
def frameStep (st : SmoothState) (ext : Vec3) (delta : ℚ) : SmoothState :=
  let sp := 5 * delta
  let c0 := lerp st.current.1 ext.1 sp
  let c1 := lerp st.current.2.1 ext.2.1 sp
  { current := (c0, c1, st.current.2.2),
    groupRot := (c0, c1, st.groupRot.2.2) }

/-- Shift both corners of a box by a vector. -/
def shiftPair (d : Vec3) (pr : Vec3 × Vec3) : Vec3 × Vec3 := (pr.1 + d, pr.2 + d)

/-- Well-formedness of a box: the min corner is below the max corner in
every axis (holds for every box built by `expandBox`). -/
def boxWF : Option (Vec3 × Vec3) → Prop
  | none => True
  | some (mn, mx) => mn.1 ≤ mx.1 ∧ mn.2.1 ≤ mx.2.1 ∧ mn.2.2 ≤ mx.2.2

/-- HeapLe h1 h2 says the material store h2 extends h1 by appended
allocations only, so every index of h1 still resolves to the same
material in h2. -/
def HeapLe (h1 h2 : List Material) : Prop := ∃ e, h2 = h1 ++ e

/-- Sanitized material at index `id` of store `hp`: a fresh allocation
(index at least `lo`, the size of the pre-normalization store) holding a
fully opaque, normally blended, double-sided material. -/
def matOK (hp : List Material) (lo : ℕ) (id : ℕ) : Prop :=
  lo ≤ id ∧ id < hp.length ∧
  (hp.getD id mdefault).transparent = false ∧
  (hp.getD id mdefault).opacity = 1 ∧
  (hp.getD id mdefault).blending = normalBlendingV ∧
  (hp.getD id mdefault).side = doubleSideV

/-- Sanitized material slot: every referenced material is sanitized. -/
def mrefOK (hp : List Material) (lo : ℕ) : Option MatRef → Prop
  | none => True
  | some (MatRef.single id) => matOK hp lo id
  | some (MatRef.arr ids) => ∀ id ∈ ids, matOK hp lo id

mutual
/-- Every mesh of the subtree casts and receives shadows and references
only sanitized, freshly allocated materials. -/
def sanitizedN (hp : List Material) (lo : ℕ) : Node → Prop
  | Node.group _ _ _ cs => sanitizedL hp lo cs
  | Node.mesh _ _ _ _ mref c rc cs =>
      c = true ∧ rc = true ∧ mrefOK hp lo mref ∧ sanitizedL hp lo cs

/-- Children part of the sanitization predicate. -/
def sanitizedL (hp : List Material) (lo : ℕ) : NodeList → Prop
  | NodeList.nil => True
  | NodeList.cons n l => sanitizedN hp lo n ∧ sanitizedL hp lo l
end

/-- Degenerate scene: a single empty group, no renderable surfaces. -/
def gEmpty : Node := Node.group (0, 0, 0) idM (1, 1, 1) NodeList.nil

/-- Example scene for witnesses: one mesh, authored off-center at
position (5,0,0), with local vertices (0,0,0) and (2,2,4) and one
material reference. -/
def meshW : Node :=
  Node.mesh (5, 0, 0) idM (1, 1, 1) [(0, 0, 0), (2, 2, 4)]
    (some (MatRef.single 0)) false false NodeList.nil

/-- Example source material: transparent, additively blended,
front-sided, exercising the forced overrides. -/
def matW : Material :=
  { transparent := true, opacity := 1/2, blending := additiveBlendingV,
    side := frontSideV, needsUpdate := false, colorHex := 7 }

theorem vec3_zero_mk : ((0, 0, 0) : Vec3) = 0 := rfl

theorem mulV_id (v : Vec3) : mulV idM v = v := by
  obtain ⟨a, b, c⟩ := v
  simp [mulV, idM]

theorem predict_rotation_empty (mathPi : ℚ) (st : AppState) (f : FrameInput)
    (hl : f.landmarks = []) : (predict mathPi st f).rotation = st.rotation := by
  unfold predict
  rw [hl]
  split
  · rfl
  · rfl

theorem predict_keeps_time (mathPi : ℚ) (st : AppState) (f : FrameInput)
    (h : f.currentTime = st.lastVideoTime) : predict mathPi st f = st := by
  unfold predict
  rw [if_neg (by simp [h])]

theorem predict_z (mathPi : ℚ) (st : AppState) (f : FrameInput) :
    (predict mathPi st f).rotation.2.2 = st.rotation.2.2 ∨
    (predict mathPi st f).rotation.2.2 = 0 := by
  unfold predict
  split
  · cases hl : f.landmarks with
    | nil => exact Or.inl rfl
    | cons hand rest => exact Or.inr rfl
  · exact Or.inl rfl

theorem foldPredict_z (mathPi : ℚ) (frames : List FrameInput) (st : AppState)
    (h : st.rotation.2.2 = 0) :
    (frames.foldl (predict mathPi) st).rotation.2.2 = 0 := by
  induction frames generalizing st with
  | nil => exact h
  | cons f fs ih =>
    rw [List.foldl_cons]
    refine ih _ ?_
    rcases predict_z mathPi st f with hz | hz
    · rw [hz]; exact h
    · exact hz

theorem lerp_progress (c t s : ℚ) (h0 : 0 < s) (h1 : s < 1) :
    (c ≠ t → |lerp c t s - t| < |c - t|) ∧
    min c t ≤ lerp c t s ∧ lerp c t s ≤ max c t := by
  refine ⟨?_, ?_, ?_⟩
  · intro hne
    have he : lerp c t s - t = (1 - s) * (c - t) := by unfold lerp; ring
    have hp : (0 : ℚ) < 1 - s := by linarith
    rw [he, abs_mul, abs_of_pos hp]
    have hpos : 0 < |c - t| := abs_pos.mpr (sub_ne_zero.mpr hne)
    nlinarith
  · rcases le_total c t with hct | htc
    · rw [min_eq_left hct]; unfold lerp; nlinarith
    · rw [min_eq_right htc]; unfold lerp; nlinarith
  · rcases le_total c t with hct | htc
    · rw [max_eq_right hct]; unfold lerp; nlinarith
    · rw [max_eq_left htc]; unfold lerp; nlinarith

/-- C5: when a hand is detected on a fresh video frame, the target
rotation written by `predict` is exactly
`((y - 0.5) * PI * 2, (x - 0.5) * PI * 4, 0)` for the normalized (x, y)
of landmark 9 (middle-finger base) of the first hand; in particular
(0.5, 0.5) maps to (0, 0, 0), x = 1 to Y-rotation 2 PI, x = 0 to -2 PI,
y = 1 to X-rotation PI, and y = 0 to -PI. -/
theorem target_rotation_formula (mathPi : ℚ) (st : AppState) (f : FrameInput)
    (hand : List Landmark) (rest : List (List Landmark))
    (hl : f.landmarks = hand :: rest)
    (ht : f.currentTime ≠ st.lastVideoTime) :
    (predict mathPi st f).rotation =
      (((hand.getD 9 lmDefault).y - 1/2) * mathPi * 2,
       ((hand.getD 9 lmDefault).x - 1/2) * mathPi * 4, 0) ∧
    ((hand.getD 9 lmDefault).x = 1/2 → (hand.getD 9 lmDefault).y = 1/2 →
      (predict mathPi st f).rotation = (0, 0, 0)) ∧
    ((hand.getD 9 lmDefault).x = 1 →
      (predict mathPi st f).rotation.2.1 = 2 * mathPi) ∧
    ((hand.getD 9 lmDefault).x = 0 →
      (predict mathPi st f).rotation.2.1 = -(2 * mathPi)) ∧
    ((hand.getD 9 lmDefault).y = 1 →
      (predict mathPi st f).rotation.1 = mathPi) ∧
    ((hand.getD 9 lmDefault).y = 0 →
      (predict mathPi st f).rotation.1 = -mathPi) := by
  have hmain : (predict mathPi st f).rotation =
      (((hand.getD 9 lmDefault).y - 1/2) * mathPi * 2,
       ((hand.getD 9 lmDefault).x - 1/2) * mathPi * 4, 0) := by
    unfold predict
    rw [if_pos ht, hl]
  refine ⟨hmain, ?_, ?_, ?_, ?_, ?_⟩
  · intro hx hy
    rw [hmain, hx, hy]
    norm_num
  · intro hx
    rw [hmain, hx]
    ring_nf
  · intro hx
    rw [hmain, hx]
    ring_nf
  · intro hy
    rw [hmain, hy]
    ring_nf
  · intro hy
    rw [hmain, hy]
    ring_nf

theorem target_rotation_formula_witness :
    (predict (314/100) initAppState
        ⟨0, [[lmDefault, lmDefault, lmDefault, lmDefault, lmDefault,
              lmDefault, lmDefault, lmDefault, lmDefault, ⟨1, 1/2, 0⟩]]⟩).rotation =
      ((1/2 - 1/2) * (314/100) * 2, (1 - 1/2) * (314/100) * 4, 0) := by
  have h := (target_rotation_formula (314/100) initAppState
      ⟨0, [[lmDefault, lmDefault, lmDefault, lmDefault, lmDefault,
            lmDefault, lmDefault, lmDefault, lmDefault, ⟨1, 1/2, 0⟩]]⟩
      [lmDefault, lmDefault, lmDefault, lmDefault, lmDefault,
       lmDefault, lmDefault, lmDefault, lmDefault, ⟨1, 1/2, 0⟩]
      [] rfl (by decide)).1
  rw [h]
  norm_num [List.getD]

/-- C6: frames with no detected hand leave the target rotation exactly
unchanged, for any number of consecutive such frames and from any
state (in particular from the state reached by a prior detection). -/
theorem no_hand_holds_target (mathPi : ℚ) (st : AppState)
    (frames : List FrameInput) (h : ∀ f ∈ frames, f.landmarks = []) :
    (frames.foldl (predict mathPi) st).rotation = st.rotation := by
  induction frames generalizing st with
  | nil => rfl
  | cons f fs ih =>
    have h1 : f.landmarks = [] := h f (by simp)
    have h2 : ∀ g ∈ fs, g.landmarks = [] := fun g hg => h g (by simp [hg])
    rw [List.foldl_cons]
    rw [ih _ h2, predict_rotation_empty _ _ _ h1]

theorem no_hand_holds_target_witness :
    (([⟨7, []⟩, ⟨8, []⟩, ⟨9, []⟩] : List FrameInput).foldl
        (predict 3) ⟨5, (1, 2, 0)⟩).rotation = ((1 : ℚ), (2 : ℚ), (0 : ℚ)) := by
  have h := no_hand_holds_target 3 ⟨5, (1, 2, 0)⟩ [⟨7, []⟩, ⟨8, []⟩, ⟨9, []⟩]
    (by intro f hf; fin_cases hf <;> rfl)
  rw [h]

/-- C7: when the video timestamp equals the last processed one, `predict`
is a complete no-op, so invoking it twice leaves the state (and hence
the target rotation) unchanged between the two calls. -/
theorem redundant_frame_noop (mathPi : ℚ) (st : AppState) (f : FrameInput)
    (h : f.currentTime = st.lastVideoTime) :
    predict mathPi st f = st ∧ predict mathPi (predict mathPi st f) f = st := by
  have h1 : predict mathPi st f = st := predict_keeps_time mathPi st f h
  exact ⟨h1, by rw [h1, h1]⟩

theorem redundant_frame_noop_witness :
    predict 3 (⟨5, (1, 0, 0)⟩ : AppState) ⟨5, [[⟨1, 1, 0⟩]]⟩ = ⟨5, (1, 0, 0)⟩ :=
  (redundant_frame_noop 3 ⟨5, (1, 0, 0)⟩ ⟨5, [[⟨1, 1, 0⟩]]⟩ rfl).1

/-- C8: the Z component of the rotation is always 0: any sequence of
`predict` frames starting from the initial app state leaves Z at 0, and
one smoothing tick never assigns the Z component of either the
`currentRotation` ref or the displayed group rotation. -/
theorem z_axis_always_zero (mathPi : ℚ) (frames : List FrameInput)
    (st : SmoothState) (ext : Vec3) (delta : ℚ) :
    (frames.foldl (predict mathPi) initAppState).rotation.2.2 = 0 ∧
    (frameStep st ext delta).current.2.2 = st.current.2.2 ∧
    (frameStep st ext delta).groupRot.2.2 = st.groupRot.2.2 :=
  ⟨foldPredict_z mathPi frames initAppState rfl, rfl, rfl⟩

/-- C3 counterexample: with target 1, displayed value 0 and a tick of
0.6 elapsed seconds (a positive elapsed time), the smoothing factor is
5 * 0.6 = 3 and the unclamped lerp jumps to 3: the distance to the
target grows from 1 to 2 and the step overshoots past the target. -/
theorem smoothing_overshoot_cex :
    (0 : ℚ) < 3/5 ∧
    ¬ |(frameStep ⟨(0, 0, 0), (0, 0, 0)⟩ (1, 1, 0) (3/5)).current.1 - 1| <
        |(0 : ℚ) - 1| ∧
    1 < (frameStep ⟨(0, 0, 0), (0, 0, 0)⟩ (1, 1, 0) (3/5)).current.1 := by
  refine ⟨by norm_num, ?_, ?_⟩ <;> norm_num [frameStep, lerp]

/-- C3 (amended): for ticks whose smoothing factor 5 * delta lies in
(0, 1), each tick strictly decreases the per-axis distance of the
displayed rotation to the target whenever they differ, and a single step
never overshoots: the new value stays between the old value and the
target (per axis, for the X and Y components the code updates). -/
theorem smoothing_progress_small_step (st : SmoothState) (ext : Vec3)
    (delta : ℚ) (hd : 0 < delta) (hs : 5 * delta < 1) :
    ((st.current.1 ≠ ext.1 →
        |(frameStep st ext delta).current.1 - ext.1| <
          |st.current.1 - ext.1|) ∧
      min st.current.1 ext.1 ≤ (frameStep st ext delta).current.1 ∧
      (frameStep st ext delta).current.1 ≤ max st.current.1 ext.1) ∧
    ((st.current.2.1 ≠ ext.2.1 →
        |(frameStep st ext delta).current.2.1 - ext.2.1| <
          |st.current.2.1 - ext.2.1|) ∧
      min st.current.2.1 ext.2.1 ≤ (frameStep st ext delta).current.2.1 ∧
      (frameStep st ext delta).current.2.1 ≤ max st.current.2.1 ext.2.1) := by
  have h0 : (0 : ℚ) < 5 * delta := by linarith
  have hx := lerp_progress st.current.1 ext.1 (5 * delta) h0 hs
  have hy := lerp_progress st.current.2.1 ext.2.1 (5 * delta) h0 hs
  exact ⟨hx, hy⟩

theorem smoothing_progress_small_step_witness :
    |(frameStep ⟨(0, 0, 0), (0, 0, 0)⟩ (1, 1, 0) (1/10)).current.1 - 1| <
      |(0 : ℚ) - 1| := by
  have h := ((smoothing_progress_small_step ⟨(0, 0, 0), (0, 0, 0)⟩ (1, 1, 0)
      (1/10) (by norm_num) (by norm_num)).1).1 (by norm_num)
  simpa using h

mutual
theorem hasMeshesN_applyMat : ∀ (n : Node) (hp : List Material),
    hasMeshesN (applyMatN n hp).1 = hasMeshesN n
  | Node.group p r s cs, hp => by
    simp only [applyMatN, hasMeshesN]
    exact hasMeshesL_applyMat cs hp
  | Node.mesh p r s g mref c rc cs, hp => by
    simp only [applyMatN, hasMeshesN]

theorem hasMeshesL_applyMat : ∀ (l : NodeList) (hp : List Material),
    hasMeshesL (applyMatL l hp).1 = hasMeshesL l
  | NodeList.nil, hp => rfl
  | NodeList.cons n l, hp => by
    simp only [applyMatL, hasMeshesL]
    rw [hasMeshesN_applyMat n hp, hasMeshesL_applyMat l (applyMatN n hp).2]
end

mutual
theorem nodeVertsN_applyMat : ∀ (n : Node) (hp : List Material) (L : Mat3)
    (t : Vec3), nodeVertsN L t (applyMatN n hp).1 = nodeVertsN L t n
  | Node.group p r s cs, hp, L, t => by
    simp only [applyMatN, nodeVertsN]
    exact nodeVertsL_applyMat cs hp _ _
  | Node.mesh p r s g mref c rc cs, hp, L, t => by
    simp only [applyMatN, nodeVertsN]
    rw [nodeVertsL_applyMat cs (applyMatRef mref hp).2]

theorem nodeVertsL_applyMat : ∀ (l : NodeList) (hp : List Material) (L : Mat3)
    (t : Vec3), nodeVertsL L t (applyMatL l hp).1 = nodeVertsL L t l
  | NodeList.nil, hp, L, t => rfl
  | NodeList.cons n l, hp, L, t => by
    simp only [applyMatL, nodeVertsL]
    rw [nodeVertsN_applyMat n hp, nodeVertsL_applyMat l (applyMatN n hp).2]
end

mutual
theorem nodeVertsN_shift : ∀ (n : Node) (L : Mat3) (t d : Vec3),
    nodeVertsN L (t + d) n = (nodeVertsN L t n).map (fun v => v + d)
  | Node.group p r s cs, L, t, d => by
    simp only [nodeVertsN]
    rw [show mulV L p + (t + d) = (mulV L p + t) + d from (add_assoc _ _ _).symm]
    exact nodeVertsL_shift cs _ _ d
  | Node.mesh p r s g mref c rc cs, L, t, d => by
    simp only [nodeVertsN, List.map_append]
    rw [show mulV L p + (t + d) = (mulV L p + t) + d from (add_assoc _ _ _).symm]
    congr 1
    · rw [List.map_map]
      apply List.map_congr_left
      intro v hv
      simp only [Function.comp_apply]
      exact (add_assoc _ _ _).symm
    · exact nodeVertsL_shift cs _ _ d

theorem nodeVertsL_shift : ∀ (l : NodeList) (L : Mat3) (t d : Vec3),
    nodeVertsL L (t + d) l = (nodeVertsL L t l).map (fun v => v + d)
  | NodeList.nil, L, t, d => rfl
  | NodeList.cons n l, L, t, d => by
    simp only [nodeVertsL, List.map_append]
    rw [nodeVertsN_shift n L t d, nodeVertsL_shift l L t d]
end

theorem pos_setTRS (n : Node) (p : Vec3) (r : Mat3) (s : Vec3) :
    (n.setTRS p r s).pos = p := by
  cases n <;> rfl

theorem rot_setTRS (n : Node) (p : Vec3) (r : Mat3) (s : Vec3) :
    (n.setTRS p r s).rot = r := by
  cases n <;> rfl

theorem scl_setTRS (n : Node) (p : Vec3) (r : Mat3) (s : Vec3) :
    (n.setTRS p r s).scl = s := by
  cases n <;> rfl

theorem pos_setPos (n : Node) (p : Vec3) : (n.setPos p).pos = p := by
  cases n <;> rfl

theorem rot_setPos (n : Node) (p : Vec3) : (n.setPos p).rot = n.rot := by
  cases n <;> rfl

theorem scl_setPos (n : Node) (p : Vec3) : (n.setPos p).scl = n.scl := by
  cases n <;> rfl

theorem hasMeshes_setTRS (n : Node) (p : Vec3) (r : Mat3) (s : Vec3) :
    hasMeshesN (n.setTRS p r s) = hasMeshesN n := by
  cases n <;> rfl

theorem hasMeshes_setPos (n : Node) (p : Vec3) :
    hasMeshesN (n.setPos p) = hasMeshesN n := by
  cases n <;> rfl

theorem nodeVertsN_setPos (n : Node) (q : Vec3) :
    nodeVertsN idM 0 (n.setPos q) =
      (nodeVertsN idM 0 n).map (fun v => v + (q - n.pos)) := by
  cases n with
  | group p r s cs =>
    simp only [Node.setPos, Node.pos, nodeVertsN]
    have h1 : mulV idM q + 0 = (mulV idM p + 0) + (q - p) := by
      rw [mulV_id, mulV_id]; abel
    rw [h1, nodeVertsL_shift]
  | mesh p r s g mref c rc cs =>
    simp only [Node.setPos, Node.pos, nodeVertsN, List.map_append]
    have h1 : mulV idM q + 0 = (mulV idM p + 0) + (q - p) := by
      rw [mulV_id, mulV_id]; abel
    rw [h1, nodeVertsL_shift]
    congr 1
    rw [List.map_map]
    apply List.map_congr_left
    intro v hv
    simp only [Function.comp_apply]
    exact (add_assoc _ _ _).symm

theorem vmin_add (a b d : Vec3) : vmin (a + d) (b + d) = vmin a b + d := by
  obtain ⟨a1, a2, a3⟩ := a
  obtain ⟨b1, b2, b3⟩ := b
  obtain ⟨d1, d2, d3⟩ := d
  simp [vmin, Prod.mk_add_mk, min_add_add_right]

theorem vmax_add (a b d : Vec3) : vmax (a + d) (b + d) = vmax a b + d := by
  obtain ⟨a1, a2, a3⟩ := a
  obtain ⟨b1, b2, b3⟩ := b
  obtain ⟨d1, d2, d3⟩ := d
  simp [vmax, Prod.mk_add_mk, max_add_add_right]

theorem expandBox_shift (b : Option (Vec3 × Vec3)) (v d : Vec3) :
    expandBox (b.map (shiftPair d)) (v + d) = (expandBox b v).map (shiftPair d) := by
  cases b with
  | none => simp [expandBox, shiftPair]
  | some pr =>
    obtain ⟨mn, mx⟩ := pr
    simp [expandBox, shiftPair, vmin_add, vmax_add]

theorem foldl_expandBox_shift (ps : List Vec3) (b : Option (Vec3 × Vec3))
    (d : Vec3) :
    (ps.map (fun v => v + d)).foldl expandBox (b.map (shiftPair d)) =
      (ps.foldl expandBox b).map (shiftPair d) := by
  induction ps generalizing b with
  | nil => rfl
  | cons v ps ih =>
    simp only [List.map_cons, List.foldl_cons]
    rw [expandBox_shift b v d, ih]

theorem boxOfPoints_shift (ps : List Vec3) (d : Vec3) :
    boxOfPoints (ps.map (fun v => v + d)) =
      (boxOfPoints ps).map (shiftPair d) := by
  have h := foldl_expandBox_shift ps none d
  simpa [boxOfPoints] using h

theorem expandBox_wf (b : Option (Vec3 × Vec3)) (v : Vec3) (h : boxWF b) :
    boxWF (expandBox b v) := by
  cases b with
  | none => simp [expandBox, boxWF]
  | some pr =>
    obtain ⟨mn, mx⟩ := pr
    obtain ⟨h1, h2, h3⟩ := h
    refine ⟨?_, ?_, ?_⟩ <;>
      simp only [expandBox, vmin, vmax] <;>
      exact le_trans (min_le_right _ _) (le_max_right _ _)

theorem foldl_expandBox_wf (ps : List Vec3) (b : Option (Vec3 × Vec3))
    (h : boxWF b) : boxWF (ps.foldl expandBox b) := by
  induction ps generalizing b with
  | nil => exact h
  | cons v ps ih =>
    rw [List.foldl_cons]
    exact ih _ (expandBox_wf b v h)

theorem boxOfPoints_wf (ps : List Vec3) : boxWF (boxOfPoints ps) :=
  foldl_expandBox_wf ps none trivial

theorem preClone_hasMeshes (s : Node) (hp : List Material) :
    hasMeshesN (preClone s hp) = hasMeshesN s := by
  unfold preClone sanitizeScene
  rw [hasMeshes_setTRS, hasMeshesN_applyMat]

theorem preClone_pos (s : Node) (hp : List Material) :
    (preClone s hp).pos = (0, 0, 0) := by
  unfold preClone sanitizeScene
  rw [pos_setTRS]

theorem preClone_verts (s : Node) (hp : List Material) :
    nodeVertsN idM 0 (preClone s hp) =
      nodeVertsN idM 0 (s.setTRS (0, 0, 0) idM (1, 1, 1)) := by
  unfold preClone sanitizeScene
  cases s with
  | group p r sc cs =>
    simp only [applyMatN, Node.setTRS, nodeVertsN]
    exact nodeVertsL_applyMat cs hp _ _
  | mesh p r sc g mref c rc cs =>
    simp only [applyMatN, Node.setTRS, nodeVertsN]
    rw [nodeVertsL_applyMat cs (applyMatRef mref hp).2]

theorem normBox_wf (s : Node) (hp : List Material) : boxWF (normBox s hp) := by
  unfold normBox meshBox fullBox
  split <;> exact boxOfPoints_wf _

theorem normBox_heap_indep (s : Node) (hp1 hp2 : List Material) :
    normBox s hp1 = normBox s hp2 := by
  unfold normBox meshBox fullBox
  rw [preClone_hasMeshes s hp1, preClone_hasMeshes s hp2,
    preClone_verts s hp1, preClone_verts s hp2]

/-- C1: for a scene with at least one renderable surface, normalization
resets the root rotation to zero (the identity matrix) and the scale to
1, sets the root position to the negation of the midpoint of the
bounding box computed over renderable surfaces only, and thereby places
the geometric center (box midpoint) of all renderable surfaces exactly
at the origin. -/
theorem norm_centers_renderable (s : Node) (hp : List Material)
    (hm : hasMeshesN s = true) :
    (normScene s hp).pos = -(boxCenter (meshBox (preClone s hp))) ∧
    (normScene s hp).rot = idM ∧
    (normScene s hp).scl = ((1 : ℚ), (1 : ℚ), (1 : ℚ)) ∧
    boxCenter (meshBox (normScene s hp)) = 0 := by
  have hmc : hasMeshesN (preClone s hp) = true := by
    rw [preClone_hasMeshes]; exact hm
  have hbox : normBox s hp = meshBox (preClone s hp) := by
    unfold normBox
    rw [if_pos hmc]
  refine ⟨?_, ?_, ?_, ?_⟩
  · unfold normScene
    rw [pos_setPos, preClone_pos, hbox, vec3_zero_mk, zero_sub]
  · unfold normScene preClone sanitizeScene
    rw [rot_setPos, rot_setTRS]
  · unfold normScene preClone sanitizeScene
    rw [scl_setPos, scl_setTRS]
  · have hv : nodeVertsN idM 0 (normScene s hp) =
        (nodeVertsN idM 0 (preClone s hp)).map
          (fun v => v + (-(boxCenter (normBox s hp)))) := by
      unfold normScene
      rw [nodeVertsN_setPos]
      congr 1
      funext v
      congr 1
      abel
    have hb2 : meshBox (normScene s hp) =
        (meshBox (preClone s hp)).map
          (shiftPair (-(boxCenter (normBox s hp)))) := by
      unfold meshBox
      rw [hv, boxOfPoints_shift]
    rw [hb2, hbox]
    rcases hmb : meshBox (preClone s hp) with _ | ⟨mn, mx⟩
    · simp [boxCenter]
    · obtain ⟨mn1, mn2, mn3⟩ := mn
      obtain ⟨mx1, mx2, mx3⟩ := mx
      simp only [Option.map, boxCenter, shiftPair, halfSum, Prod.mk_add_mk,
        Prod.neg_mk, Prod.ext_iff, Prod.fst, Prod.snd]
      norm_num
      refine ⟨by ring, by ring, by ring⟩

theorem norm_centers_renderable_witness :
    hasMeshesN meshW = true ∧
    (normScene meshW [matW]).pos = ((-1 : ℚ), (-1 : ℚ), (-2 : ℚ)) ∧
    boxCenter (meshBox (normScene meshW [matW])) = 0 := by
  have h := norm_centers_renderable meshW [matW] (by decide)
  refine ⟨by decide, ?_, h.2.2.2⟩
  rw [h.1]
  norm_num [preClone, sanitizeScene, applyMatN, applyMatRef, applySettings,
    applyMatL, Node.setTRS, meshBox, nodeVertsN, nodeVertsL, mulM, mulV,
    diagM, idM, boxOfPoints, expandBox, vmin, vmax, boxCenter, halfSum,
    Prod.mk_add_mk, List.foldl]

/-- C2 counterexample: for the empty-group scene (no renderable
surfaces) the fallback box is empty, so its extent is zero in all
dimensions, yet the published scale factor is 4.0 = targetSize / 1, not
1.0 as the claim states. -/
theorem degenerate_scale_not_one_cex :
    hasMeshesN gEmpty = false ∧
    boxSizeV (normBox gEmpty []) = ((0 : ℚ), (0 : ℚ), (0 : ℚ)) ∧
    normScale gEmpty [] = 4 ∧ normScale gEmpty [] ≠ 1 := by
  norm_num [normScale, maxDimOf, normBox, preClone, sanitizeScene, applyMatN,
    applyMatL, Node.setTRS, hasMeshesN, hasMeshesL, fullBox, meshBox,
    nodeVertsN, nodeVertsL, boxOfPoints, boxSizeV, targetSize, gEmpty,
    List.foldl]

/-- C2 (amended): for a mesh with zero renderable surfaces whose
fallback bounding box has zero extent in all dimensions, normalization
divides by the fallback divisor 1 (never by zero) and the published
scale factor is exactly 4.0 (targetSize / 1). -/
theorem degenerate_scale_is_four (s : Node) (hp : List Material)
    (hm : hasMeshesN s = false)
    (hz : boxSizeV (normBox s hp) = 0) :
    maxDimOf s hp = 0 ∧ normScale s hp = 4 := by
  have h1 : maxDimOf s hp = 0 := by
    unfold maxDimOf
    rw [hz]
    simp
  refine ⟨h1, ?_⟩
  unfold normScale
  rw [h1, if_pos rfl]
  norm_num [targetSize]

theorem degenerate_scale_is_four_witness :
    normScale gEmpty [] = 4 :=
  (degenerate_scale_is_four gEmpty [] (by decide) (by decide)).2

/-- C10: for every input scene the divisor `maxDim || 1` is nonzero and
the published display scale factor is strictly positive (and, over the
rationals, finite by construction): the division-by-zero branch is
unreachable. -/
theorem scale_factor_positive (s : Node) (hp : List Material) :
    (if maxDimOf s hp = 0 then (1 : ℚ) else maxDimOf s hp) ≠ 0 ∧
    0 < normScale s hp := by
  have hwf := normBox_wf s hp
  have hnn : 0 ≤ maxDimOf s hp := by
    unfold maxDimOf
    rcases hb : normBox s hp with _ | ⟨mn, mx⟩
    · simp [boxSizeV]
    · rw [hb] at hwf
      obtain ⟨h1, h2, h3⟩ := hwf
      have h4 : 0 ≤ (boxSizeV (some (mn, mx))).1 := by
        simp only [boxSizeV, Prod.fst_sub]
        linarith
      exact le_trans h4 (le_max_left _ _)
  constructor
  · split
    · exact one_ne_zero
    · intro hc
      exact (by assumption : ¬ maxDimOf s hp = 0) hc
  · unfold normScale
    split
    · norm_num [targetSize]
    · refine div_pos (by norm_num [targetSize]) ?_
      exact lt_of_le_of_ne hnn (Ne.symm (by assumption))

theorem HeapLe.rfl (hp : List Material) : HeapLe hp hp := ⟨[], by simp⟩

theorem HeapLe.trans {a b c : List Material} (h1 : HeapLe a b)
    (h2 : HeapLe b c) : HeapLe a c := by
  obtain ⟨e1, rfl⟩ := h1
  obtain ⟨e2, rfl⟩ := h2
  exact ⟨e1 ++ e2, by simp⟩

theorem HeapLe.len {a b : List Material} (h : HeapLe a b) :
    a.length ≤ b.length := by
  obtain ⟨e, rfl⟩ := h
  simp

theorem HeapLe.getD {a b : List Material} (h : HeapLe a b) (i : ℕ)
    (hi : i < a.length) (d : Material) : b.getD i d = a.getD i d := by
  obtain ⟨e, rfl⟩ := h
  exact List.getD_append a e d i hi

theorem matOK_mono {h1 h2 : List Material} {lo id : ℕ} (hle : HeapLe h1 h2)
    (h : matOK h1 lo id) : matOK h2 lo id := by
  obtain ⟨ha, hb, hc, hd, he, hf⟩ := h
  have hg := hle.getD id hb mdefault
  exact ⟨ha, lt_of_lt_of_le hb hle.len, by rw [hg]; exact hc,
    by rw [hg]; exact hd, by rw [hg]; exact he, by rw [hg]; exact hf⟩

theorem mrefOK_mono {h1 h2 : List Material} {lo : ℕ} {mref : Option MatRef}
    (hle : HeapLe h1 h2) (h : mrefOK h1 lo mref) : mrefOK h2 lo mref := by
  cases mref with
  | none => trivial
  | some mr =>
    cases mr with
    | single id => exact matOK_mono hle h
    | arr ids => exact fun id hid => matOK_mono hle (h id hid)

theorem applySettings_heapLe (hp : List Material) (id : ℕ) :
    HeapLe hp (applySettings hp id).1 :=
  ⟨[forcedFields (hp.getD id mdefault)], rfl⟩

theorem applySettings_matOK (hp : List Material) (id lo : ℕ)
    (hlo : lo ≤ hp.length) :
    matOK (applySettings hp id).1 lo (applySettings hp id).2 := by
  have hget : (applySettings hp id).1.getD hp.length mdefault =
      forcedFields (hp.getD id mdefault) := by
    unfold applySettings List.getD
    rw [List.get?_concat_length]
    rfl
  refine ⟨hlo, by simp [applySettings], ?_, ?_, ?_, ?_⟩ <;>
    rw [show (applySettings hp id).2 = hp.length from rfl, hget] <;> rfl

theorem applySettingsList_heapLe (ids : List ℕ) (hp : List Material) :
    HeapLe hp (applySettingsList ids hp).2 := by
  induction ids generalizing hp with
  | nil => exact HeapLe.rfl hp
  | cons id ids ih =>
    exact HeapLe.trans (applySettings_heapLe hp id)
      (ih (applySettings hp id).1)

theorem applySettingsList_matOK (ids : List ℕ) (hp : List Material) (lo : ℕ)
    (hlo : lo ≤ hp.length) :
    ∀ nid ∈ (applySettingsList ids hp).1,
      matOK (applySettingsList ids hp).2 lo nid := by
  induction ids generalizing hp with
  | nil => intro nid h; simp [applySettingsList] at h
  | cons id ids ih =>
    intro nid h
    simp only [applySettingsList, List.mem_cons] at h
    rcases h with h | h
    · subst h
      exact matOK_mono (applySettingsList_heapLe ids (applySettings hp id).1)
        (applySettings_matOK hp id lo hlo)
    · exact ih (applySettings hp id).1
        (le_trans hlo (applySettings_heapLe hp id).len) nid h

theorem applyMatRef_heapLe (mref : Option MatRef) (hp : List Material) :
    HeapLe hp (applyMatRef mref hp).2 := by
  cases mref with
  | none => exact HeapLe.rfl hp
  | some mr =>
    cases mr with
    | single id => exact applySettings_heapLe hp id
    | arr ids => exact applySettingsList_heapLe ids hp

theorem applyMatRef_mrefOK (mref : Option MatRef) (hp : List Material)
    (lo : ℕ) (hlo : lo ≤ hp.length) :
    mrefOK (applyMatRef mref hp).2 lo (applyMatRef mref hp).1 := by
  cases mref with
  | none => trivial
  | some mr =>
    cases mr with
    | single id => exact applySettings_matOK hp id lo hlo
    | arr ids =>
      intro nid hnid
      exact applySettingsList_matOK ids hp lo hlo nid hnid

mutual
theorem applyMatN_heapLe : ∀ (n : Node) (hp : List Material),
    HeapLe hp (applyMatN n hp).2
  | Node.group p r s cs, hp => by
    simpa [applyMatN] using applyMatL_heapLe cs hp
  | Node.mesh p r s g mref c rc cs, hp => by
    simp only [applyMatN]
    exact HeapLe.trans (applyMatRef_heapLe mref hp)
      (applyMatL_heapLe cs (applyMatRef mref hp).2)

theorem applyMatL_heapLe : ∀ (l : NodeList) (hp : List Material),
    HeapLe hp (applyMatL l hp).2
  | NodeList.nil, hp => HeapLe.rfl hp
  | NodeList.cons n l, hp => by
    simp only [applyMatL]
    exact HeapLe.trans (applyMatN_heapLe n hp)
      (applyMatL_heapLe l (applyMatN n hp).2)
end

mutual
theorem sanitizedN_mono : ∀ (n : Node) {h1 h2 : List Material} {lo : ℕ},
    HeapLe h1 h2 → sanitizedN h1 lo n → sanitizedN h2 lo n
  | Node.group p r s cs, h1, h2, lo, hle, h => sanitizedL_mono cs hle h
  | Node.mesh p r s g mref c rc cs, h1, h2, lo, hle, h => by
    obtain ⟨hc, hrc, hm, hcs⟩ := h
    exact ⟨hc, hrc, mrefOK_mono hle hm, sanitizedL_mono cs hle hcs⟩

theorem sanitizedL_mono : ∀ (l : NodeList) {h1 h2 : List Material} {lo : ℕ},
    HeapLe h1 h2 → sanitizedL h1 lo l → sanitizedL h2 lo l
  | NodeList.nil, h1, h2, lo, hle, h => trivial
  | NodeList.cons n l, h1, h2, lo, hle, h =>
    ⟨sanitizedN_mono n hle h.1, sanitizedL_mono l hle h.2⟩
end

mutual
theorem applyMatN_sanitized : ∀ (n : Node) (hp : List Material) (lo : ℕ),
    lo ≤ hp.length → sanitizedN (applyMatN n hp).2 lo (applyMatN n hp).1
  | Node.group p r s cs, hp, lo, hlo => by
    simp only [applyMatN, sanitizedN]
    exact applyMatL_sanitized cs hp lo hlo
  | Node.mesh p r s g mref c rc cs, hp, lo, hlo => by
    simp only [applyMatN, sanitizedN]
    refine ⟨trivial, trivial, ?_, ?_⟩
    · exact mrefOK_mono (applyMatL_heapLe cs (applyMatRef mref hp).2)
        (applyMatRef_mrefOK mref hp lo hlo)
    · exact applyMatL_sanitized cs (applyMatRef mref hp).2 lo
        (le_trans hlo (applyMatRef_heapLe mref hp).len)

theorem applyMatL_sanitized : ∀ (l : NodeList) (hp : List Material) (lo : ℕ),
    lo ≤ hp.length → sanitizedL (applyMatL l hp).2 lo (applyMatL l hp).1
  | NodeList.nil, hp, lo, hlo => trivial
  | NodeList.cons n l, hp, lo, hlo => by
    simp only [applyMatL, sanitizedL]
    refine ⟨?_, ?_⟩
    · exact sanitizedN_mono _ (applyMatL_heapLe l (applyMatN n hp).2)
        (applyMatN_sanitized n hp lo hlo)
    · exact applyMatL_sanitized l (applyMatN n hp).2 lo
        (le_trans hlo (applyMatN_heapLe n hp).len)
end

theorem sanitized_setTRS (hp : List Material) (lo : ℕ) (n : Node) (p : Vec3)
    (r : Mat3) (s : Vec3) :
    sanitizedN hp lo (n.setTRS p r s) ↔ sanitizedN hp lo n := by
  cases n <;> exact Iff.rfl

theorem sanitized_setPos (hp : List Material) (lo : ℕ) (n : Node) (p : Vec3) :
    sanitizedN hp lo (n.setPos p) ↔ sanitizedN hp lo n := by
  cases n <;> exact Iff.rfl

/-- C4: after normalization every mesh of the processed scene casts and
receives shadows, and every material it references is a fresh allocation
(index at least the size of the pre-normalization store, so never a
shared source instance) that is fully opaque (transparent = false,
opacity = 1), normally (non-additively) blended and double-sided,
regardless of the pre-normalization settings. -/
theorem materials_sanitized (s : Node) (hp : List Material) :
    sanitizedN (normHeap s hp) hp.length (normScene s hp) := by
  have h := applyMatN_sanitized s hp hp.length (le_refl _)
  unfold normScene
  rw [sanitized_setPos]
  unfold preClone sanitizeScene
  rw [sanitized_setTRS]
  exact h

/-- C9: normalization never mutates the source: the material store is
only extended by appended clones, every pre-existing material resolves
unchanged, and (since centering and scaling depend only on the geometry,
which the material stage does not touch) re-running normalization from
the same source scene against any store (for example, the one a previous
run produced) publishes the same scale factor and root position — no
drift accumulates over repeated runs.  The node tree itself is a pure
value in this model: normalization returns a new tree built from the
deep clone and never rebinds the source. -/
theorem source_materials_untouched (s : Node) (hp : List Material) :
    HeapLe hp (normHeap s hp) ∧
    (∀ i, i < hp.length →
      (normHeap s hp).getD i mdefault = hp.getD i mdefault) ∧
    (∀ hp2 : List Material, normScale s hp2 = normScale s hp ∧
      (normScene s hp2).pos = (normScene s hp).pos) := by
  have hle : HeapLe hp (normHeap s hp) := applyMatN_heapLe s hp
  refine ⟨hle, fun i hi => hle.getD i hi mdefault, fun hp2 => ⟨?_, ?_⟩⟩
  · unfold normScale maxDimOf
    rw [normBox_heap_indep s hp2 hp]
  · unfold normScene
    rw [pos_setPos, pos_setPos, preClone_pos, preClone_pos,
      normBox_heap_indep s hp2 hp]
